import Mathlib

/-!
Shallow embedding of the input subsystem of the romy repository:
`src/romy-core/src/input.rs` and the input-argument part of
`src/romy-core/src/lib.rs`.

The `f32` axis fields of `Controller` are embedded as rationals: the code
applies only order comparisons and `max` to them, operations that are exact
and agree with IEEE semantics on non-NaN values.  Machine integers (`i32`
affinities) are embedded as `Int`; the affinity values in play are 0, 1, 2,
far from overflow.  Rust `Vec` becomes `List`, with `Vec::pop` taking the
last element and `Vec::remove(i)` becoming `List.eraseIdx`.
-/

/-- `InputDeviceType` from input.rs: input device types. -/
inductive InputDeviceType
  | Nes
  | Controller
  | Keyboard
deriving DecidableEq

/-- `KeyCode` from input.rs: key/scan codes.  The Rust digit variants
`_1`..`_0` are rendered `N1`..`N0`. -/
inductive KeyCode
  | N1 | N2 | N3 | N4 | N5 | N6 | N7 | N8 | N9 | N0
  | A | B | C | D | E | F | G | H | I | J | K | L | M
  | N | O | P | Q | R | S | T | U | V | W | X | Y | Z
  | Up | Down | Left | Right
  | Enter | Tab
  | LeftBracket | RightBracket | Slash | Backslash
  | Comma | Period | Semicolon | Quote
deriving DecidableEq

/-- `Key` from input.rs: a key that can be pressed by a Keyboard. -/
structure Key where
  scan_code : KeyCode
  key_code : KeyCode
deriving DecidableEq

/-- `Nes` from input.rs: NES-style controller state. -/
structure Nes where
  a : Bool
  b : Bool
  up : Bool
  down : Bool
  left : Bool
  right : Bool
  start : Bool
  select : Bool
deriving DecidableEq

/-- `Controller` from input.rs: standard controller state; axes embedded as `ℚ`. -/
structure Controller where
  a : Bool
  b : Bool
  x : Bool
  y : Bool
  up : Bool
  down : Bool
  left : Bool
  right : Bool
  start : Bool
  select : Bool
  guide : Bool
  left_shoulder : Bool
  right_shoulder : Bool
  left_stick : Bool
  right_stick : Bool
  left_stick_x : ℚ
  left_stick_y : ℚ
  right_stick_x : ℚ
  right_stick_y : ℚ
  left_trigger : ℚ
  right_trigger : ℚ
deriving DecidableEq

/-- `Keyboard` from input.rs: list of currently pressed keys. -/
structure Keyboard where
  pressed : List Key
deriving DecidableEq

/-- `InputDevice` from input.rs: enumeration over all input types. -/
inductive InputDevice
  | Nes : Nes → InputDevice
  | Controller : Controller → InputDevice
  | Keyboard : Keyboard → InputDevice
deriving DecidableEq

/-- `Nes::combine` (impl InputCombine for Nes). -/
def Nes.combine (s w : Nes) : Nes where
  a := s.a || w.a
  b := s.b || w.b
  up := s.up || w.up
  down := s.down || w.down
  left := s.left || w.left
  right := s.right || w.right
  start := s.start || w.start
  select := s.select || w.select

/-- `Nes::convert` (impl InputConvert for Nes). -/
def Nes.convert (s : Nes) : InputDeviceType → Option InputDevice
  | InputDeviceType.Nes => some (InputDevice.Nes s)
  | _ => none

/-- `Nes::affinity` (impl InputConvert for Nes). -/
def Nes.affinity (_ : Nes) : InputDeviceType → Option Int
  | InputDeviceType.Nes => some 0
  | _ => none

/-- `Controller::combine` (impl InputCombine for Controller). -/
def Controller.combine (s w : Controller) : Controller where
  a := s.a || w.a
  b := s.b || w.b
  x := s.x || w.x
  y := s.y || w.y
  up := s.up || w.up
  down := s.down || w.down
  left := s.left || w.left
  right := s.right || w.right
  start := s.start || w.start
  select := s.select || w.select
  guide := s.guide || w.guide
  left_shoulder := s.left_shoulder || w.left_shoulder
  right_shoulder := s.right_shoulder || w.right_shoulder
  left_stick := s.left_stick || w.left_stick
  right_stick := s.right_stick || w.right_stick
  left_stick_x := max s.left_stick_x w.left_stick_x
  left_stick_y := max s.left_stick_y w.left_stick_y
  right_stick_x := max s.right_stick_x w.right_stick_x
  right_stick_y := max s.right_stick_y w.right_stick_y
  left_trigger := max s.left_trigger w.left_trigger
  right_trigger := max s.right_trigger w.right_trigger

/-- `Controller::to_nes`. -/
def Controller.to_nes (s : Controller) : Nes :=
  let stick_sensitivity : ℚ := 0.5
  { a := s.a
    b := s.b
    up := s.up || decide (s.left_stick_y < -stick_sensitivity)
    down := s.down || decide (s.left_stick_y ≥ stick_sensitivity)
    left := s.left || decide (s.left_stick_x < -stick_sensitivity)
    right := s.right || decide (s.left_stick_x ≥ stick_sensitivity)
    start := s.start
    select := s.select }

/-- `Controller::convert` (impl InputConvert for Controller). -/
def Controller.convert (s : Controller) : InputDeviceType → Option InputDevice
  | InputDeviceType.Nes => some (InputDevice.Nes s.to_nes)
  | InputDeviceType.Controller => some (InputDevice.Controller s)
  | _ => none

/-- `Controller::affinity` (impl InputConvert for Controller). -/
def Controller.affinity (_ : Controller) : InputDeviceType → Option Int
  | InputDeviceType.Nes => some 1
  | InputDeviceType.Controller => some 0
  | _ => none

/-- `Keyboard::key_up`: retain only keys whose scan code differs. -/
def Keyboard.key_up (k : Keyboard) (scan_code : KeyCode) : Keyboard :=
  ⟨k.pressed.filter fun key => key.scan_code != scan_code⟩

/-- `Keyboard::key_down`: release the scan code, then push the key. -/
def Keyboard.key_down (k : Keyboard) (key : Key) : Keyboard :=
  ⟨(k.key_up key.scan_code).pressed ++ [key]⟩

/-- `Keyboard::is_down_scan`. -/
def Keyboard.is_down_scan (k : Keyboard) (scan_code : KeyCode) : Bool :=
  k.pressed.any fun key => key.scan_code == scan_code

/-- `Keyboard::is_down_key`. -/
def Keyboard.is_down_key (k : Keyboard) (key_code : KeyCode) : Bool :=
  k.pressed.any fun key => key.key_code == key_code

/-- `Keyboard::to_nes`: fixed key bindings. -/
def Keyboard.to_nes (s : Keyboard) : Nes where
  a := s.is_down_scan KeyCode.K || s.is_down_scan KeyCode.X || s.is_down_scan KeyCode.J
  b := s.is_down_scan KeyCode.J || s.is_down_scan KeyCode.Z || s.is_down_scan KeyCode.N
  up := s.is_down_scan KeyCode.W || s.is_down_scan KeyCode.Up || s.is_down_scan KeyCode.F
  down := s.is_down_scan KeyCode.S || s.is_down_scan KeyCode.Down
  left := s.is_down_scan KeyCode.A || s.is_down_scan KeyCode.Left || s.is_down_scan KeyCode.R
  right := s.is_down_scan KeyCode.D || s.is_down_scan KeyCode.Right || s.is_down_scan KeyCode.T
  start := s.is_down_scan KeyCode.Enter
  select := s.is_down_scan KeyCode.Tab

/-- `Keyboard::convert` (impl InputConvert for Keyboard). -/
def Keyboard.convert (s : Keyboard) : InputDeviceType → Option InputDevice
  | InputDeviceType.Nes => some (InputDevice.Nes s.to_nes)
  | InputDeviceType.Keyboard => some (InputDevice.Keyboard s)
  | _ => none

/-- `Keyboard::affinity` (impl InputConvert for Keyboard). -/
def Keyboard.affinity (_ : Keyboard) : InputDeviceType → Option Int
  | InputDeviceType.Nes => some 2
  | InputDeviceType.Keyboard => some 0
  | _ => none

/-- `Keyboard::combine` (impl InputCombine for Keyboard): start from the left
operand's pressed list and `key_down` every key of the right operand. -/
def Keyboard.combine (s w : Keyboard) : Keyboard :=
  w.pressed.foldl (fun result key => result.key_down key) ⟨s.pressed⟩

/-- `InputDevice::convert` (impl InputConvert for InputDevice). -/
def InputDevice.convert : InputDevice → InputDeviceType → Option InputDevice
  | InputDevice.Nes nes, t => nes.convert t
  | InputDevice.Controller standard_controller, t => standard_controller.convert t
  | InputDevice.Keyboard keyboard, t => keyboard.convert t

/-- `InputDevice::affinity` (impl InputConvert for InputDevice). -/
def InputDevice.affinity : InputDevice → InputDeviceType → Option Int
  | InputDevice.Nes nes, t => nes.affinity t
  | InputDevice.Controller standard_controller, t => standard_controller.affinity t
  | InputDevice.Keyboard keyboard, t => keyboard.affinity t

/-- `InputDevice::combine` (impl InputCombine for InputDevice): convert the
right operand to the left operand's variant and combine; on failure return a
copy of the left operand. -/
def InputDevice.combine (s w : InputDevice) : InputDevice :=
  match s with
  | InputDevice.Nes nes =>
    match w.convert InputDeviceType.Nes with
    | some (InputDevice.Nes w') => InputDevice.Nes (nes.combine w')
    | _ => s
  | InputDevice.Controller standard_controller =>
    match w.convert InputDeviceType.Controller with
    | some (InputDevice.Controller w') => InputDevice.Controller (standard_controller.combine w')
    | _ => s
  | InputDevice.Keyboard keyboard =>
    match w.convert InputDeviceType.Keyboard with
    | some (InputDevice.Keyboard w') => InputDevice.Keyboard (keyboard.combine w')
    | _ => s

/-- `InputCollection` from input.rs. -/
structure InputCollection where
  inputs : List InputDevice
deriving DecidableEq

/-- `InputCollection::new`. -/
def InputCollection.new : InputCollection := ⟨[]⟩

/-- `InputCollection::add_input`: push at the end. -/
def InputCollection.add_input (c : InputCollection) (device : InputDevice) : InputCollection :=
  ⟨c.inputs ++ [device]⟩

/-- State of the per-slot scan inside `InputCollection::split`: the three
mutable locals `found_index`, `found_affinity`, `found_for`. -/
structure ScanState where
  found_index : Option Nat
  found_affinity : Option Int
  found_for : Option InputDevice
deriving DecidableEq

/-- One iteration of the inner `for (index, input) in remaining.iter().enumerate()`
loop of `InputCollection::split`. -/
def scanStep (t : InputDeviceType) (st : ScanState) (index : Nat) (input : InputDevice) : ScanState :=
  match input.affinity t with
  | some affinity =>
    let skip :=
      match st.found_affinity with
      | some fa => decide (affinity ≥ fa)
      | none => false
    if skip then st
    else
      match input.convert t with
      | some found_new => ⟨some index, some affinity, some found_new⟩
      | none => st
  | none => st

/-- The inner enumerate loop of `InputCollection::split`, indices counted from
`index`. -/
def scanLoop (t : InputDeviceType) : Nat → ScanState → List InputDevice → ScanState
  | _, st, [] => st
  | index, st, input :: rest => scanLoop t (index + 1) (scanStep t st index input) rest

/-- The whole per-slot scan of `InputCollection::split` over a working set. -/
def scanAll (remaining : List InputDevice) (t : InputDeviceType) : ScanState :=
  scanLoop t 0 ⟨none, none, none⟩ remaining

/-- The outer `for input_type in into` loop of `InputCollection::split`:
returns the pushed `found` list and the final `remaining` working set. -/
def splitLoop : List InputDevice → List InputDeviceType → List (Option InputDevice) × List InputDevice
  | remaining, [] => ([], remaining)
  | remaining, input_type :: rest =>
    let st := scanAll remaining input_type
    let remaining' :=
      match st.found_index with
      | some index => remaining.eraseIdx index
      | none => remaining
    let result := splitLoop remaining' rest
    (st.found_for :: result.1, result.2)

/-- `InputCollection::split`. -/
def InputCollection.split (c : InputCollection) (into : List InputDeviceType) :
    List (Option InputDevice) × InputCollection :=
  let r := splitLoop c.inputs into
  (r.1, ⟨r.2⟩)

/-- The pop-and-combine loop of `InputCollection::convert`
(`while let Some(converted) = successfully_converted.pop()`); the list argument
holds the vector's still-unpopped elements topmost-first. -/
def combinePopLoop : InputDevice → List InputDevice → InputDevice
  | result, [] => result
  | result, converted :: rest => combinePopLoop (result.combine converted) rest

/-- `InputCollection::convert` (impl InputConvert for InputCollection): collect
all successful member conversions in insertion order, then pop from the end,
combining into the popped accumulator. -/
def InputCollection.convert (c : InputCollection) (t : InputDeviceType) : Option InputDevice :=
  let successfully_converted := c.inputs.filterMap fun input => input.convert t
  match successfully_converted.reverse with
  | [] => none
  | result :: rest => some (combinePopLoop result rest)

/-- `InputCollection::affinity` (impl InputConvert for InputCollection). -/
def InputCollection.affinity (c : InputCollection) (t : InputDeviceType) : Option Int :=
  c.inputs.foldl
    (fun affinity input =>
      match affinity with
      | some current =>
        match input.affinity t with
        | some test => if test < current then some test else affinity
        | none => affinity
      | none => input.affinity t)
    none

/-- `Player` from lib.rs. -/
structure Player where
  input : InputDeviceType
deriving DecidableEq

/-- `Info` from lib.rs (step interval in nanoseconds). -/
structure Info where
  name : String
  step_interval : Nat
  players : List Player
deriving DecidableEq

/-- `PlayerInputArguments` from lib.rs. -/
structure PlayerInputArguments where
  input : InputDevice
deriving DecidableEq

/-- `InputArguments` from lib.rs. -/
structure InputArguments where
  players : List (Option PlayerInputArguments)
deriving DecidableEq

/-- The per-slot update of the surplus-absorption loop in
`InputCollection::get_input_arguments`: combine each already-filled slot with
the device the new pass found for it.  (In the source the two lists always
have equal length; a shorter second list leaves trailing slots unchanged.) -/
def absorb : List (Option PlayerInputArguments) → List (Option InputDevice) →
    List (Option PlayerInputArguments)
  | [], _ => []
  | result_player :: rest, [] => result_player :: absorb rest []
  | result_player :: rest, new_device :: nd_rest =>
    (match result_player, new_device with
     | some player, some device => some ⟨player.input.combine device⟩
     | _, _ => result_player) :: absorb rest nd_rest

/-- The `loop { ... }` of `InputCollection::get_input_arguments`, returning the
final result together with the number of `split` passes the loop performed. -/
def giaLoopAux (devices : List InputDeviceType) (result : List (Option PlayerInputArguments))
    (remaining : List InputDevice) : List (Option PlayerInputArguments) × Nat :=
  if h : (splitLoop remaining devices).2.length = remaining.length then (result, 1)
  else
    let next := giaLoopAux devices (absorb result (splitLoop remaining devices).1)
      (splitLoop remaining devices).2
    (next.1, next.2 + 1)
termination_by remaining.length
decreasing_by
  have hle : ∀ (into : List InputDeviceType) (rem : List InputDevice),
      (splitLoop rem into).2.length ≤ rem.length := by
    intro into
    induction into with
    | nil => intro rem; exact Nat.le_refl _
    | cons t rest ih =>
      intro rem
      simp only [splitLoop]
      refine Nat.le_trans (ih _) ?_
      cases (scanAll rem t).found_index with
      | none => exact Nat.le_refl _
      | some index => exact List.length_eraseIdx_le rem index
  have := hle devices remaining
  omega

/-- `InputCollection::get_input_arguments`. -/
def InputCollection.get_input_arguments (c : InputCollection) (info : Info) : InputArguments :=
  let devices := info.players.map fun player => player.input
  let sp := c.split devices
  let result : List (Option PlayerInputArguments) :=
    sp.1.map fun input => input.map fun i => ⟨i⟩
  ⟨(giaLoopAux devices result sp.2.inputs).1⟩

/-- Total number of `split` passes performed by one call of
`InputCollection::get_input_arguments`: the initial split plus the loop's. -/
def gia_passes (c : InputCollection) (info : Info) : Nat :=
  let devices := info.players.map fun player => player.input
  let sp := c.split devices
  let result : List (Option PlayerInputArguments) :=
    sp.1.map fun input => input.map fun i => ⟨i⟩
  1 + (giaLoopAux devices result sp.2.inputs).2

/-- `InputArguments::player` from lib.rs.  Rust computes
`self.players.get(player as usize)`; the `as` cast reduces the `i32` index
modulo `2^64` (two's complement), so a negative index becomes huge and misses. -/
def InputArguments.player (args : InputArguments) (player : Int) : Option PlayerInputArguments :=
  let idx := (player % (2 : Int) ^ 64).toNat
  match args.players[idx]? with
  | some p => p
  | none => none

/-- `PlayerInputArguments::nes` from lib.rs. -/
def PlayerInputArguments.nes (p : PlayerInputArguments) : Option Nes :=
  match p.input with
  | InputDevice.Nes nes => some nes
  | _ => none

/-- `PlayerInputArguments::controller` from lib.rs. -/
def PlayerInputArguments.controller (p : PlayerInputArguments) : Option Controller :=
  match p.input with
  | InputDevice.Controller c => some c
  | _ => none

/-- `PlayerInputArguments::keyboard` from lib.rs. -/
def PlayerInputArguments.keyboard (p : PlayerInputArguments) : Option Keyboard :=
  match p.input with
  | InputDevice.Keyboard k => some k
  | _ => none

/-- Observation: the variant tag of a device. -/
def variantOf : InputDevice → InputDeviceType
  | InputDevice.Nes _ => InputDeviceType.Nes
  | InputDevice.Controller _ => InputDeviceType.Controller
  | InputDevice.Keyboard _ => InputDeviceType.Keyboard

/-- Observation: the first pressed entry carrying a scan code. -/
def Keyboard.lookup (kb : Keyboard) (sc : KeyCode) : Option Key :=
  kb.pressed.find? fun key => key.scan_code == sc

/-- The pressed-set invariant: at most one entry per scan code. -/
def Keyboard.Inv (kb : Keyboard) : Prop :=
  kb.pressed.Pairwise fun k1 k2 => k1.scan_code ≠ k2.scan_code

/-- The documented ranges of the controller's axis fields. -/
def Controller.InRange (c : Controller) : Prop :=
  -1 ≤ c.left_stick_x ∧ c.left_stick_x ≤ 1 ∧
  -1 ≤ c.left_stick_y ∧ c.left_stick_y ≤ 1 ∧
  -1 ≤ c.right_stick_x ∧ c.right_stick_x ≤ 1 ∧
  -1 ≤ c.right_stick_y ∧ c.right_stick_y ≤ 1 ∧
  0 ≤ c.left_trigger ∧ c.left_trigger ≤ 1 ∧
  0 ≤ c.right_trigger ∧ c.right_trigger ≤ 1

/-- The affinity table as the specification states it (section 4.1), written
from the spec's words for comparison with the code's `affinity`. -/
def specAffinityTable (source target : InputDeviceType) : Option Int :=
  if source = target then some 0
  else
    match source, target with
    | InputDeviceType.Controller, InputDeviceType.Nes => some 1
    | InputDeviceType.Keyboard, InputDeviceType.Nes => some 2
    | _, _ => none

/-- Loop invariant of the per-slot scan: the `ScanState` is the correct outcome
of scanning the devices seen so far (lowest affinity wins, first-seen wins
ties, the converted winner is recorded). -/
def ScanInv (t : InputDeviceType) (seen : List InputDevice) (st : ScanState) : Prop :=
  match st with
  | ⟨some i, some a, some d'⟩ =>
    ∃ d, seen[i]? = some d ∧ d.affinity t = some a ∧ d.convert t = some d' ∧
      ∀ j dj aj, seen[j]? = some dj → dj.affinity t = some aj → a ≤ aj ∧ (j < i → a < aj)
  | ⟨none, none, none⟩ => ∀ d ∈ seen, d.affinity t = none
  | _ => False

/-- Converting succeeds exactly when the affinity is defined, for every device. -/
theorem convert_isSome_eq (d : InputDevice) (t : InputDeviceType) :
    (d.convert t).isSome = (d.affinity t).isSome := by
  cases d <;> cases t <;> rfl

/-- A successful conversion produces a device of the requested variant. -/
theorem variantOf_convert {d d' : InputDevice} {t : InputDeviceType}
    (h : d.convert t = some d') : variantOf d' = t := by
  cases d <;> cases t <;>
    simp only [InputDevice.convert, Nes.convert, Controller.convert, Keyboard.convert,
      Option.some.injEq, reduceCtorEq] at h <;>
    first
    | exact absurd h not_false
    | (subst h; rfl)

/-- `InputDevice::combine` always returns a device of the left operand's variant. -/
theorem variantOf_combine (s w : InputDevice) : variantOf (s.combine w) = variantOf s := by
  cases s <;> simp only [InputDevice.combine] <;> split <;> rfl

/-- Claim C3: for every device value, affinity follows the spec's table
(`Some 0` on the own type, `Some 1` for Controller to Nes, `Some 2` for
Keyboard to Nes, `None` elsewhere), convert succeeds exactly when affinity is
defined, and converting a device to its own type returns the device itself. -/
theorem claim_C3 (d : InputDevice) (t : InputDeviceType) :
    d.affinity t = specAffinityTable (variantOf d) t ∧
    ((d.convert t).isSome ↔ (d.affinity t).isSome) ∧
    d.convert (variantOf d) = some d := by
  refine ⟨?_, ?_, ?_⟩
  · cases d <;> cases t <;> rfl
  · rw [convert_isSome_eq]
  · cases d <;> rfl

/-- Claim C6: Controller to Nes conversion copies a, b, start, select, and each
direction is the d-pad boolean OR'd with the left stick tested against the
symmetric 0.5 deadzone threshold, strict on the negative side and non-strict
on the positive side. -/
theorem claim_C6 (c : Controller) :
    c.to_nes.a = c.a ∧ c.to_nes.b = c.b ∧ c.to_nes.start = c.start ∧
    c.to_nes.select = c.select ∧
    (c.to_nes.left = true ↔ (c.left = true ∨ c.left_stick_x < -(1 / 2 : ℚ))) ∧
    (c.to_nes.right = true ↔ (c.right = true ∨ (1 / 2 : ℚ) ≤ c.left_stick_x)) ∧
    (c.to_nes.up = true ↔ (c.up = true ∨ c.left_stick_y < -(1 / 2 : ℚ))) ∧
    (c.to_nes.down = true ↔ (c.down = true ∨ (1 / 2 : ℚ) ≤ c.left_stick_y)) := by
  have h05 : (0.5 : ℚ) = 1 / 2 := by norm_num
  simp [Controller.to_nes, h05, ge_iff_le]

/-- Claim C7: same-variant combination is commutative, associative and
idempotent for Nes values and for Controller values with axis fields in their
documented ranges: booleans combine by OR, axes by max. -/
theorem claim_C7 :
    (∀ a b : Nes, a.combine b = b.combine a) ∧
    (∀ a b c : Nes, (a.combine b).combine c = a.combine (b.combine c)) ∧
    (∀ a : Nes, a.combine a = a) ∧
    (∀ a b : Controller, a.InRange → b.InRange → a.combine b = b.combine a) ∧
    (∀ a b c : Controller, a.InRange → b.InRange → c.InRange →
      (a.combine b).combine c = a.combine (b.combine c)) ∧
    (∀ a : Controller, a.InRange → a.combine a = a) := by
  refine ⟨?_, ?_, ?_, ?_, ?_, ?_⟩
  · intro a b; simp [Nes.combine, Bool.or_comm]
  · intro a b c; simp [Nes.combine, Bool.or_assoc]
  · intro a; simp [Nes.combine]
  · intro a b _ _; simp [Controller.combine, Bool.or_comm, max_comm]
  · intro a b c _ _ _; simp [Controller.combine, Bool.or_assoc, max_assoc]
  · intro a _; simp [Controller.combine]

/-- Witness for claim C7: the Controller laws applied at two concrete in-range
controllers. -/
theorem claim_C7_witness :
    (Controller.mk true false false false false false false false false false
        false false false false false (1 / 2) 0 0 0 0 1).combine
      (Controller.mk false true false false false false false false false false
        false false false false false (-1) (1 / 4) 0 0 1 0) =
    (Controller.mk false true false false false false false false false false
        false false false false false (-1) (1 / 4) 0 0 1 0).combine
      (Controller.mk true false false false false false false false false false
        false false false false false (1 / 2) 0 0 0 0 1) :=
  claim_C7.2.2.2.1 _ _ (by norm_num [Controller.InRange]) (by norm_num [Controller.InRange])

/-- Filtering a scan code out leaves no entry found for that scan code. -/
theorem find?_scan_filter_self (l : List Key) (sc : KeyCode) :
    (l.filter fun key => key.scan_code != sc).find? (fun key => key.scan_code == sc) = none := by
  rw [List.find?_eq_none]
  intro x hx
  rcases List.mem_filter.mp hx with ⟨_, hne⟩
  simp only [bne_iff_ne, ne_eq] at hne
  simp [hne]

/-- Filtering a different scan code out does not disturb a lookup. -/
theorem find?_scan_filter_ne (l : List Key) (sc sc0 : KeyCode) (h : sc ≠ sc0) :
    (l.filter fun key => key.scan_code != sc0).find? (fun key => key.scan_code == sc) =
      l.find? (fun key => key.scan_code == sc) := by
  induction l with
  | nil => rfl
  | cons k rest ih =>
    rw [List.filter_cons]
    by_cases hk : k.scan_code = sc0
    · have hmatch : (k.scan_code == sc) = false := by
        simp [hk]
        exact fun hh => h hh.symm
      simp only [hk, bne_self_eq_false, if_false, Bool.false_eq_true]
      rw [ih, List.find?_cons, hmatch]
    · have : (k.scan_code != sc0) = true := by simp [hk]
      rw [if_pos this, List.find?_cons, List.find?_cons]
      cases hks : (k.scan_code == sc) with
      | true => rfl
      | false => exact ih

/-- `key_down` installs its key for its scan code and leaves every other scan
code's lookup unchanged. -/
theorem lookup_key_down (kb : Keyboard) (k : Key) (sc : KeyCode) :
    (kb.key_down k).lookup sc = if k.scan_code = sc then some k else kb.lookup sc := by
  show ((kb.pressed.filter fun key => key.scan_code != k.scan_code) ++ [k]).find?
      (fun key => key.scan_code == sc) = _
  rw [List.find?_append]
  by_cases h : k.scan_code = sc
  · subst h
    rw [find?_scan_filter_self]
    simp [List.find?]
  · rw [find?_scan_filter_ne _ _ _ fun hh => h hh.symm, if_neg h]
    have : ([k].find? fun key => key.scan_code == sc) = none := by
      have hks : (k.scan_code == sc) = false := by simp [h]
      simp [List.find?_cons, hks]
    rw [this, Option.or_none]
    rfl

/-- `key_up` preserves the at-most-one-entry-per-scan-code invariant. -/
theorem Inv_key_up (kb : Keyboard) (sc : KeyCode) (h : kb.Inv) : (kb.key_up sc).Inv :=
  List.Pairwise.sublist (List.filter_sublist _) h

/-- `key_down` preserves the at-most-one-entry-per-scan-code invariant. -/
theorem Inv_key_down (kb : Keyboard) (k : Key) (h : kb.Inv) : (kb.key_down k).Inv := by
  show ((kb.pressed.filter fun key => key.scan_code != k.scan_code) ++ [k]).Pairwise _
  rw [List.pairwise_append]
  refine ⟨Inv_key_up kb k.scan_code h, List.pairwise_singleton _ _, ?_⟩
  intro a ha b hb
  rcases List.mem_filter.mp ha with ⟨_, hne⟩
  simp only [bne_iff_ne, ne_eq] at hne
  rw [List.mem_singleton.mp hb]
  exact hne

/-- `combine` preserves the invariant (only the left operand's copy matters:
each right-operand key goes through `key_down`). -/
theorem Inv_combine (s w : Keyboard) (h : s.Inv) : (s.combine w).Inv := by
  rcases w with ⟨wp⟩
  induction wp generalizing s with
  | nil => exact h
  | cons k rest ih =>
    have hcons : s.combine ⟨k :: rest⟩ = (s.key_down k).combine ⟨rest⟩ := rfl
    rw [hcons]
    exact ih (s.key_down k) (Inv_key_down s k h)

/-- Combining keyboards takes the union of the pressed sets, the right
operand's entry winning for a shared scan code. -/
theorem lookup_combine (s w : Keyboard) (hw : w.Inv) (sc : KeyCode) :
    (s.combine w).lookup sc = (w.lookup sc).or (s.lookup sc) := by
  rcases w with ⟨wp⟩
  induction wp generalizing s with
  | nil =>
    have h1 : Keyboard.lookup ⟨[]⟩ sc = none := rfl
    have h2 : s.combine ⟨[]⟩ = s := rfl
    rw [h1, h2, Option.none_or]
  | cons k rest ih =>
    have hcons : s.combine ⟨k :: rest⟩ = (s.key_down k).combine ⟨rest⟩ := rfl
    have hrest : Keyboard.Inv ⟨rest⟩ := (List.pairwise_cons.mp hw).2
    rw [hcons, ih (s.key_down k) hrest, lookup_key_down]
    by_cases h : k.scan_code = sc
    · have hnone : Keyboard.lookup ⟨rest⟩ sc = none := by
        rw [Keyboard.lookup, List.find?_eq_none]
        intro x hx
        have hne := (List.pairwise_cons.mp hw).1 x hx
        rw [← h]
        simp only [beq_iff_eq]
        exact fun hh => hne hh.symm
      have hhead : Keyboard.lookup ⟨k :: rest⟩ sc = some k := by
        have hks : (k.scan_code == sc) = true := by simp [h]
        simp [Keyboard.lookup, List.find?_cons, hks]
      rw [hnone, hhead, if_pos h, Option.none_or]
      rfl
    · have hhead : Keyboard.lookup ⟨k :: rest⟩ sc = Keyboard.lookup ⟨rest⟩ sc := by
        have hks : (k.scan_code == sc) = false := by simp [h]
        simp [Keyboard.lookup, List.find?_cons, hks]
      rw [hhead, if_neg h]

/-- Claim C8: `key_down`, `key_up` and `combine` preserve the at-most-one-entry
per scan code invariant; `key_down` replaces the entry of an already-pressed
scan code; `combine` is the union of the pressed sets with the right operand's
key-code winning for a shared scan code. -/
theorem claim_C8 :
    (∀ (kb : Keyboard) (k : Key), kb.Inv → (kb.key_down k).Inv) ∧
    (∀ (kb : Keyboard) (sc : KeyCode), kb.Inv → (kb.key_up sc).Inv) ∧
    (∀ (s w : Keyboard), s.Inv → w.Inv → (s.combine w).Inv) ∧
    (∀ (kb : Keyboard) (k : Key), (kb.key_down k).lookup k.scan_code = some k) ∧
    (∀ (kb : Keyboard) (k : Key) (sc : KeyCode), k.scan_code ≠ sc →
      (kb.key_down k).lookup sc = kb.lookup sc) ∧
    (∀ (s w : Keyboard) (sc : KeyCode), s.Inv → w.Inv →
      (s.combine w).lookup sc = (w.lookup sc).or (s.lookup sc)) := by
  refine ⟨fun kb k h => Inv_key_down kb k h,
          fun kb sc h => Inv_key_up kb sc h,
          fun s w hs _ => Inv_combine s w hs,
          ?_, ?_,
          fun s w sc _ hw => lookup_combine s w hw sc⟩
  · intro kb k; rw [lookup_key_down, if_pos rfl]
  · intro kb k sc h; rw [lookup_key_down, if_neg h]

/-- Witness for claim C8: two concrete single-key keyboards sharing scan code
`A`; the combination keeps the right operand's key-code. -/
theorem claim_C8_witness :
    (Keyboard.combine ⟨[⟨KeyCode.A, KeyCode.A⟩]⟩ ⟨[⟨KeyCode.A, KeyCode.B⟩]⟩).lookup KeyCode.A =
      (Keyboard.lookup ⟨[⟨KeyCode.A, KeyCode.B⟩]⟩ KeyCode.A).or
        (Keyboard.lookup ⟨[⟨KeyCode.A, KeyCode.A⟩]⟩ KeyCode.A) :=
  claim_C8.2.2.2.2.2 ⟨[⟨KeyCode.A, KeyCode.A⟩]⟩ ⟨[⟨KeyCode.A, KeyCode.B⟩]⟩ KeyCode.A
    (List.pairwise_singleton _ _) (List.pairwise_singleton _ _)

/-- Unfolding equation for `InputCollection::convert`. -/
theorem convert_eq (c : InputCollection) (t : InputDeviceType) :
    c.convert t =
      match (c.inputs.filterMap fun input => input.convert t).reverse with
      | [] => none
      | r :: rest => some (combinePopLoop r rest) := rfl

/-- The pop-and-combine loop is a left fold. -/
theorem combinePopLoop_eq_foldl (l : List InputDevice) (r : InputDevice) :
    combinePopLoop r l = l.foldl InputDevice.combine r := by
  induction l generalizing r with
  | nil => rfl
  | cons x rest ih => rw [combinePopLoop, List.foldl_cons, ih]

/-- Counterexample to claim C1: a pool of two keyboards both pressing scan code
`A`, the first with key-code `A`, the second (latest-inserted) with key-code
`B`.  The aggregate conversion keeps the earliest member's key-code `A`, not
the latest member's `B` as the claim states. -/
theorem claim_C1_counterexample :
    InputCollection.convert
        ⟨[InputDevice.Keyboard ⟨[⟨KeyCode.A, KeyCode.A⟩]⟩,
          InputDevice.Keyboard ⟨[⟨KeyCode.A, KeyCode.B⟩]⟩]⟩ InputDeviceType.Keyboard
      = some (InputDevice.Keyboard ⟨[⟨KeyCode.A, KeyCode.A⟩]⟩) ∧
    KeyCode.A ≠ KeyCode.B := by
  exact ⟨rfl, by decide⟩

/-- Claim C1 (amended): every convertible member is converted; the result is
`none` exactly when no member converts; the successful conversions are combined
by a fold in reverse insertion order — starting from the latest-inserted
conversion, each earlier conversion becoming the right operand of `combine` —
so for a pool of keyboards sharing a pressed scan code, the surviving key-code
is that of the earliest-inserted member. -/
theorem claim_C1_amended :
    (∀ (c : InputCollection) (t : InputDeviceType),
      c.convert t = none ↔ ∀ d ∈ c.inputs, d.convert t = none) ∧
    (∀ (c : InputCollection) (t : InputDeviceType) (l : List InputDevice) (x : InputDevice),
      c.inputs.filterMap (fun d => d.convert t) = l ++ [x] →
      c.convert t = some (l.reverse.foldl InputDevice.combine x)) ∧
    (∀ (ka kb : Keyboard) (sc : KeyCode) (key : Key), ka.Inv →
      ka.lookup sc = some key →
      ∃ kr, InputCollection.convert ⟨[InputDevice.Keyboard ka, InputDevice.Keyboard kb]⟩
          InputDeviceType.Keyboard = some (InputDevice.Keyboard kr) ∧
        kr.lookup sc = some key) := by
  refine ⟨?_, ?_, ?_⟩
  · intro c t
    rw [convert_eq]
    cases hrev : (c.inputs.filterMap fun input => input.convert t).reverse with
    | nil =>
      have hnil := List.filterMap_eq_nil_iff.mp (List.reverse_eq_nil_iff.mp hrev)
      exact ⟨fun _ d hd => hnil d hd, fun _ => rfl⟩
    | cons r rest =>
      simp only [reduceCtorEq, false_iff]
      intro hall
      have hnil : (c.inputs.filterMap fun input => input.convert t) = [] :=
        List.filterMap_eq_nil_iff.mpr hall
      rw [hnil] at hrev
      exact absurd hrev (by simp)
  · intro c t l x h
    rw [convert_eq]
    have : (c.inputs.filterMap fun input => input.convert t) = l ++ [x] := h
    rw [this, List.reverse_append, List.reverse_singleton, List.singleton_append]
    show some (combinePopLoop x l.reverse) = _
    rw [combinePopLoop_eq_foldl]
  · intro ka kb sc key hInv hlook
    refine ⟨kb.combine ka, rfl, ?_⟩
    rw [lookup_combine kb ka hInv sc, hlook]
    rfl

/-- Witness for claim C1 (amended): the keyboard clause at the counterexample
pool; the surviving key entry for scan code `A` is the earliest member's. -/
theorem claim_C1_amended_witness :
    ∃ kr, InputCollection.convert
        ⟨[InputDevice.Keyboard ⟨[⟨KeyCode.A, KeyCode.A⟩]⟩,
          InputDevice.Keyboard ⟨[⟨KeyCode.A, KeyCode.B⟩]⟩]⟩ InputDeviceType.Keyboard
        = some (InputDevice.Keyboard kr) ∧
      kr.lookup KeyCode.A = some ⟨KeyCode.A, KeyCode.A⟩ :=
  claim_C1_amended.2.2 ⟨[⟨KeyCode.A, KeyCode.A⟩]⟩ ⟨[⟨KeyCode.A, KeyCode.B⟩]⟩ KeyCode.A
    ⟨KeyCode.A, KeyCode.A⟩ (List.pairwise_singleton _ _) rfl

/-- A defined affinity guarantees a successful conversion. -/
theorem convert_of_affinity {d : InputDevice} {t : InputDeviceType} {a : Int}
    (h : d.affinity t = some a) : ∃ c, d.convert t = some c := by
  have hs := convert_isSome_eq d t
  rw [h] at hs
  exact Option.isSome_iff_exists.mp (by rw [hs]; rfl)

/-- Where an index lands after appending one element. -/
theorem getElem?_append_single {α : Type _} {l : List α} {x : α} {j : Nat} {y : α}
    (h : (l ++ [x])[j]? = some y) :
    (j < l.length ∧ l[j]? = some y) ∨ (j = l.length ∧ y = x) := by
  rcases Nat.lt_trichotomy j l.length with hlt | heq | hgt
  · exact Or.inl ⟨hlt, by rwa [List.getElem?_append_left hlt] at h⟩
  · subst heq
    rw [List.getElem?_concat_length] at h
    exact Or.inr ⟨rfl, (Option.some.inj h).symm⟩
  · exfalso
    have hlen : (l ++ [x]).length ≤ j := by
      rw [List.length_append, List.length_singleton]
      omega
    rw [List.getElem?_eq_none hlen] at h
    exact Option.noConfusion h

/-- `scanStep` skips a device with undefined affinity. -/
theorem scanStep_none {t : InputDeviceType} {st : ScanState} {index : Nat} {input : InputDevice}
    (haff : input.affinity t = none) : scanStep t st index input = st := by
  simp [scanStep, haff]

/-- `scanStep` skips a device whose affinity is not strictly lower. -/
theorem scanStep_skip {t : InputDeviceType} {st : ScanState} {index : Nat} {input : InputDevice}
    {a fa : Int} (haff : input.affinity t = some a) (hfa : st.found_affinity = some fa)
    (hge : a ≥ fa) : scanStep t st index input = st := by
  simp [scanStep, haff, hfa, hge]

/-- `scanStep` records the first convertible device when nothing is held yet. -/
theorem scanStep_update_of_none {t : InputDeviceType} {st : ScanState} {index : Nat}
    {input : InputDevice} {a : Int} {c : InputDevice}
    (haff : input.affinity t = some a) (hfa : st.found_affinity = none)
    (hc : input.convert t = some c) :
    scanStep t st index input = ⟨some index, some a, some c⟩ := by
  simp [scanStep, haff, hfa, hc]

/-- `scanStep` replaces the held candidate on a strictly lower affinity. -/
theorem scanStep_update_of_lt {t : InputDeviceType} {st : ScanState} {index : Nat}
    {input : InputDevice} {a fa : Int} {c : InputDevice}
    (haff : input.affinity t = some a) (hfa : st.found_affinity = some fa)
    (hlt : a < fa) (hc : input.convert t = some c) :
    scanStep t st index input = ⟨some index, some a, some c⟩ := by
  have : ¬(a ≥ fa) := not_le.mpr hlt
  simp [scanStep, haff, hfa, hc, this]

/-- One scan step preserves the scan invariant when the stepped device is the
next element of the working set. -/
theorem scanStep_inv {t : InputDeviceType} {seen : List InputDevice} {st : ScanState}
    (h : ScanInv t seen st) (input : InputDevice) :
    ScanInv t (seen ++ [input]) (scanStep t st seen.length input) := by
  rcases st with ⟨fi, fa, ff⟩
  match fi, fa, ff with
  | none, none, some d' => exact False.elim h
  | none, some a, none => exact False.elim h
  | none, some a, some d' => exact False.elim h
  | some i, none, none => exact False.elim h
  | some i, none, some d' => exact False.elim h
  | some i, some a, none => exact False.elim h
  | none, none, none =>
    simp only [ScanInv] at h
    cases haff : input.affinity t with
    | none =>
      rw [scanStep_none haff]
      simp only [ScanInv]
      intro d hd
      rcases List.mem_append.mp hd with hin | hin
      · exact h d hin
      · rw [List.mem_singleton.mp hin]; exact haff
    | some a2 =>
      obtain ⟨c, hc⟩ := convert_of_affinity haff
      rw [scanStep_update_of_none haff rfl hc]
      simp only [ScanInv]
      refine ⟨input, List.getElem?_concat_length _ _, haff, hc, ?_⟩
      intro j dj aj hj haj
      rcases getElem?_append_single hj with ⟨hlt, hj'⟩ | ⟨hje, hde⟩
      · have hnone := h dj (List.getElem?_mem hj')
        rw [hnone] at haj
        exact Option.noConfusion haj
      · subst hde
        rw [haff] at haj
        obtain rfl := Option.some.inj haj
        exact ⟨le_refl _, fun hji => by omega⟩
  | some i, some a, some d' =>
    simp only [ScanInv] at h
    obtain ⟨d, hdi, hda, hdc, hmin⟩ := h
    have hilt : i < seen.length := (List.getElem?_eq_some_iff.mp hdi).1
    cases haff : input.affinity t with
    | none =>
      rw [scanStep_none haff]
      simp only [ScanInv]
      refine ⟨d, by rw [List.getElem?_append_left hilt]; exact hdi, hda, hdc, ?_⟩
      intro j dj aj hj haj
      rcases getElem?_append_single hj with ⟨hlt, hj'⟩ | ⟨hje, hde⟩
      · exact hmin j dj aj hj' haj
      · subst hde
        rw [haff] at haj
        exact Option.noConfusion haj
    | some a2 =>
      by_cases hge : a2 ≥ a
      · rw [scanStep_skip haff rfl hge]
        simp only [ScanInv]
        refine ⟨d, by rw [List.getElem?_append_left hilt]; exact hdi, hda, hdc, ?_⟩
        intro j dj aj hj haj
        rcases getElem?_append_single hj with ⟨hlt, hj'⟩ | ⟨hje, hde⟩
        · exact hmin j dj aj hj' haj
        · subst hde
          rw [haff] at haj
          obtain rfl := Option.some.inj haj
          exact ⟨hge, fun hji => by omega⟩
      · push_neg at hge
        obtain ⟨c, hc⟩ := convert_of_affinity haff
        rw [scanStep_update_of_lt haff rfl hge hc]
        simp only [ScanInv]
        refine ⟨input, List.getElem?_concat_length _ _, haff, hc, ?_⟩
        intro j dj aj hj haj
        rcases getElem?_append_single hj with ⟨hlt, hj'⟩ | ⟨hje, hde⟩
        · have hj2 := hmin j dj aj hj' haj
          exact ⟨le_of_lt (lt_of_lt_of_le hge hj2.1), fun _ => lt_of_lt_of_le hge hj2.1⟩
        · subst hde
          rw [haff] at haj
          obtain rfl := Option.some.inj haj
          exact ⟨le_refl _, fun hji => by omega⟩

/-- The scan loop preserves the scan invariant. -/
theorem scanLoop_inv {t : InputDeviceType} (rest : List InputDevice) :
    ∀ (seen : List InputDevice) (st : ScanState), ScanInv t seen st →
      ScanInv t (seen ++ rest) (scanLoop t seen.length st rest) := by
  induction rest with
  | nil => intro seen st h; simpa using h
  | cons input rest2 ih =>
    intro seen st h
    have hnext := ih (seen ++ [input]) (scanStep t st seen.length input) (scanStep_inv h input)
    rw [List.length_append, List.length_singleton] at hnext
    rw [List.append_assoc, List.singleton_append] at hnext
    exact hnext

/-- The whole per-slot scan satisfies the scan invariant. -/
theorem scanAll_inv (remaining : List InputDevice) (t : InputDeviceType) :
    ScanInv t remaining (scanAll remaining t) := by
  have h0 : ScanInv t [] (⟨none, none, none⟩ : ScanState) := by
    simp only [ScanInv]
    intro d hd
    exact absurd hd (List.not_mem_nil d)
  simpa using scanLoop_inv remaining [] ⟨none, none, none⟩ h0

/-- Claim C2: the per-slot scan of `split` either finds nothing (exactly when
no device in the working set has a defined affinity) or returns a winner whose
affinity is minimal among all defined affinities, every earlier device with a
defined affinity scoring strictly worse — equal scores never displace an
earlier candidate. -/
theorem claim_C2 (remaining : List InputDevice) (t : InputDeviceType) :
    ((scanAll remaining t).found_index = none → ∀ d ∈ remaining, d.affinity t = none) ∧
    (∀ i, (scanAll remaining t).found_index = some i →
      ∃ d a, remaining[i]? = some d ∧ d.affinity t = some a ∧
        (scanAll remaining t).found_affinity = some a ∧
        ∀ j dj aj, remaining[j]? = some dj → dj.affinity t = some aj →
          a ≤ aj ∧ (j < i → a < aj)) := by
  have hinv := scanAll_inv remaining t
  rcases hst : scanAll remaining t with ⟨fi, fa, ff⟩
  rw [hst] at hinv
  match fi, fa, ff with
  | none, none, some d' => exact False.elim hinv
  | none, some a, none => exact False.elim hinv
  | none, some a, some d' => exact False.elim hinv
  | some i, none, none => exact False.elim hinv
  | some i, none, some d' => exact False.elim hinv
  | some i, some a, none => exact False.elim hinv
  | none, none, none =>
    simp only [ScanInv] at hinv
    exact ⟨fun _ => hinv, fun i hi => Option.noConfusion hi⟩
  | some i0, some a0, some d0 =>
    simp only [ScanInv] at hinv
    obtain ⟨d, hdi, hda, _, hmin⟩ := hinv
    refine ⟨fun hcon => Option.noConfusion hcon, ?_⟩
    intro i hi
    obtain rfl := Option.some.inj hi
    exact ⟨d, a0, hdi, hda, rfl, hmin⟩

/-- Witness for claim C2: scanning a keyboard (affinity 2) then a NES pad
(affinity 0) for a Nes slot; the winner is the pad at index 1 with score 0. -/
theorem claim_C2_witness :
    ∃ d a,
      ([InputDevice.Keyboard ⟨[]⟩,
        InputDevice.Nes ⟨false, false, false, false, false, false, false, false⟩] :
          List InputDevice)[1]? = some d ∧
      d.affinity InputDeviceType.Nes = some a ∧
      (scanAll
          [InputDevice.Keyboard ⟨[]⟩,
           InputDevice.Nes ⟨false, false, false, false, false, false, false, false⟩]
          InputDeviceType.Nes).found_affinity = some a ∧
      ∀ j dj aj,
        ([InputDevice.Keyboard ⟨[]⟩,
          InputDevice.Nes ⟨false, false, false, false, false, false, false, false⟩] :
            List InputDevice)[j]? = some dj →
        dj.affinity InputDeviceType.Nes = some aj → a ≤ aj ∧ (j < 1 → a < aj) :=
  (claim_C2
      [InputDevice.Keyboard ⟨[]⟩,
       InputDevice.Nes ⟨false, false, false, false, false, false, false, false⟩]
      InputDeviceType.Nes).2 1 rfl

/-- A split pass never grows the working set. -/
theorem splitLoop_snd_length_le (into : List InputDeviceType) :
    ∀ remaining : List InputDevice, (splitLoop remaining into).2.length ≤ remaining.length := by
  induction into with
  | nil => intro rem; exact Nat.le_refl _
  | cons t rest ih =>
    intro rem
    refine Nat.le_trans (ih _) ?_
    cases hfi : (scanAll rem t).found_index with
    | none => exact Nat.le_refl _
    | some index => exact List.length_eraseIdx_le rem index

/-- A split pass produces one candidate slot per requested type. -/
theorem splitLoop_fst_length (into : List InputDeviceType) :
    ∀ remaining : List InputDevice, (splitLoop remaining into).1.length = into.length := by
  induction into with
  | nil => intro rem; rfl
  | cons t rest ih =>
    intro rem
    show ((scanAll rem t).found_for :: _).length = rest.length + 1
    rw [List.length_cons, ih]

/-- Splitting an empty working set yields all-`none` candidates. -/
theorem splitLoop_nil : ∀ into : List InputDeviceType,
    splitLoop [] into = (into.map fun _ => none, []) := by
  intro into
  induction into with
  | nil => rfl
  | cons t rest ih =>
    calc splitLoop [] (t :: rest)
        = (none :: (splitLoop [] rest).1, (splitLoop [] rest).2) := rfl
      _ = (none :: rest.map fun _ => none, []) := by rw [ih]
      _ = ((t :: rest).map fun _ => none, []) := rfl

/-- The absorption loop stops when a pass claims nothing. -/
theorem giaLoopAux_stop {devices : List InputDeviceType}
    {result : List (Option PlayerInputArguments)} {remaining : List InputDevice}
    (h : (splitLoop remaining devices).2.length = remaining.length) :
    giaLoopAux devices result remaining = (result, 1) := by
  rw [giaLoopAux]
  rw [dif_pos h]

/-- The absorption loop takes a step when a pass claims a device. -/
theorem giaLoopAux_step {devices : List InputDeviceType}
    {result : List (Option PlayerInputArguments)} {remaining : List InputDevice}
    (h : ¬(splitLoop remaining devices).2.length = remaining.length) :
    giaLoopAux devices result remaining =
      ((giaLoopAux devices (absorb result (splitLoop remaining devices).1)
          (splitLoop remaining devices).2).1,
       (giaLoopAux devices (absorb result (splitLoop remaining devices).1)
          (splitLoop remaining devices).2).2 + 1) := by
  rw [giaLoopAux]
  rw [dif_neg h]

/-- The loop performs at most one more pass than the working set has devices. -/
theorem giaLoopAux_passes_le (devices : List InputDeviceType)
    (result : List (Option PlayerInputArguments)) (remaining : List InputDevice) :
    (giaLoopAux devices result remaining).2 ≤ remaining.length + 1 := by
  induction result, remaining using giaLoopAux.induct devices with
  | case1 result remaining h =>
    rw [giaLoopAux_stop h]
    omega
  | case2 result remaining h ih =>
    have hlt : (splitLoop remaining devices).2.length < remaining.length :=
      Nat.lt_of_le_of_ne (splitLoop_snd_length_le devices remaining) h
    rw [giaLoopAux_step h]
    show (giaLoopAux devices (absorb result (splitLoop remaining devices).1)
        (splitLoop remaining devices).2).2 + 1 ≤ remaining.length + 1
    omega

/-- Counterexample to claim C5: with an empty pool (and no players) the call
still performs 2 split passes, exceeding the claimed bound of the initial pool
size, here 0. -/
theorem claim_C5_counterexample :
    gia_passes ⟨[]⟩ ⟨"", 0, []⟩ = 2 ∧
    ¬gia_passes ⟨[]⟩ ⟨"", 0, []⟩ ≤ (InputCollection.mk []).inputs.length := by
  have h : gia_passes ⟨[]⟩ ⟨"", 0, []⟩ = 2 := by
    simp [gia_passes, InputCollection.split, splitLoop, giaLoopAux]
  exact ⟨h, by rw [h]; decide⟩

/-- Claim C5 (amended): `get_input_arguments` terminates — each loop pass
either strictly shrinks the remaining collection or stops — and the total
number of internal split passes is at most the initial pool size plus two. -/
theorem claim_C5_amended (c : InputCollection) (info : Info) :
    gia_passes c info ≤ c.inputs.length + 2 := by
  have h1 := giaLoopAux_passes_le (info.players.map fun player => player.input)
    ((c.split (info.players.map fun player => player.input)).1.map fun input =>
      input.map fun i => ⟨i⟩)
    (c.split (info.players.map fun player => player.input)).2.inputs
  have h2 : ((c.split (info.players.map fun player => player.input)).2).inputs.length ≤
      c.inputs.length :=
    splitLoop_snd_length_le _ c.inputs
  simp only [gia_passes]
  omega

/-- The absorption step leaves empty slots empty and filled slots filled. -/
theorem absorb_getElem_none (r : List (Option PlayerInputArguments)) :
    ∀ (nd : List (Option InputDevice)) (i : Nat),
      (absorb r nd)[i]? = some none ↔ r[i]? = some none := by
  induction r with
  | nil => intro nd i; rfl
  | cons rp rest ih =>
    intro nd i
    cases nd with
    | nil =>
      cases i with
      | zero => simp [absorb]
      | succ n =>
        rw [show absorb (rp :: rest) [] = rp :: absorb rest [] from rfl,
          List.getElem?_cons_succ, List.getElem?_cons_succ]
        exact ih [] n
    | cons nd0 ndr =>
      cases i with
      | zero =>
        cases rp with
        | none => cases nd0 <;> simp [absorb]
        | some player => cases nd0 <;> simp [absorb]
      | succ n =>
        rw [show absorb (rp :: rest) (nd0 :: ndr) =
            (match rp, nd0 with
             | some player, some device => some ⟨player.input.combine device⟩
             | _, _ => rp) :: absorb rest ndr from rfl,
          List.getElem?_cons_succ, List.getElem?_cons_succ]
        exact ih ndr n

/-- The whole absorption loop leaves the empty slots exactly as given. -/
theorem giaLoopAux_getElem_none (devices : List InputDeviceType)
    (result : List (Option PlayerInputArguments)) (remaining : List InputDevice) :
    ∀ i : Nat, ((giaLoopAux devices result remaining).1)[i]? = some none ↔
      result[i]? = some none := by
  induction result, remaining using giaLoopAux.induct devices with
  | case1 result remaining h =>
    intro i
    rw [giaLoopAux_stop h]
  | case2 result remaining h ih =>
    intro i
    rw [giaLoopAux_step h]
    show ((giaLoopAux devices (absorb result (splitLoop remaining devices).1)
        (splitLoop remaining devices).2).1)[i]? = some none ↔ _
    rw [ih i, absorb_getElem_none]

/-- Claim C4: a slot that is `None` after the first split pass stays `None`
through the whole surplus-absorption loop, and a filled slot stays filled: the
`None` slots of the returned result are exactly the `None` slots of the first
pass. -/
theorem claim_C4 (c : InputCollection) (info : Info) (i : Nat) :
    ((c.get_input_arguments info).players)[i]? = some none ↔
      ((c.split (info.players.map fun player => player.input)).1)[i]? = some none := by
  simp only [InputCollection.get_input_arguments]
  rw [giaLoopAux_getElem_none]
  rw [List.getElem?_map]
  cases ((c.split (info.players.map fun player => player.input)).1)[i]? with
  | none => simp
  | some v => cases v <;> simp

/-- With nothing remaining the loop stops immediately. -/
theorem gia_loop_empty (devices : List InputDeviceType)
    (result : List (Option PlayerInputArguments)) :
    giaLoopAux devices result [] = (result, 1) :=
  giaLoopAux_stop (by rw [splitLoop_nil])

/-- An empty pool degenerates to an all-`none` assignment of the right length. -/
theorem gia_empty_pool (info : Info) :
    (InputCollection.mk []).get_input_arguments info =
      ⟨info.players.map fun _ => none⟩ := by
  simp only [InputCollection.get_input_arguments, InputCollection.split]
  rw [splitLoop_nil]
  simp only [List.map_map]
  rw [gia_loop_empty]
  simp [Function.comp_def]

/-- Claim C9: degenerate shapes are handled without failure: an empty pool
yields an all-`none` result of the players list's length, an empty players
list yields an empty result, and the snapshot lookup returns `none` for any
index past the end or naming an unfilled slot. -/
theorem claim_C9 :
    (∀ info : Info,
      ((InputCollection.mk []).get_input_arguments info).players.length =
        info.players.length ∧
      ∀ x ∈ ((InputCollection.mk []).get_input_arguments info).players, x = none) ∧
    (∀ (c : InputCollection) (name : String) (si : Nat),
      (c.get_input_arguments ⟨name, si, []⟩).players = []) ∧
    (∀ (args : InputArguments) (p : Int),
      args.players.length ≤ (p % (2 : Int) ^ 64).toNat → args.player p = none) ∧
    (∀ (args : InputArguments) (p : Int),
      args.players[(p % (2 : Int) ^ 64).toNat]? = some none → args.player p = none) := by
  refine ⟨?_, ?_, ?_, ?_⟩
  · intro info
    rw [gia_empty_pool]
    refine ⟨by simp, ?_⟩
    intro x hx
    rcases List.mem_map.mp hx with ⟨a, _, hxe⟩
    exact hxe.symm
  · intro c name si
    have hmain : (c.get_input_arguments ⟨name, si, []⟩).players = (giaLoopAux [] [] c.inputs).1 :=
      rfl
    rw [hmain,
      giaLoopAux_stop (show (splitLoop c.inputs []).2.length = c.inputs.length from rfl)]
  · intro args p h
    simp only [InputArguments.player]
    rw [List.getElem?_eq_none h]
  · intro args p h
    simp only [InputArguments.player]
    rw [h]

/-- Witness for claim C9: a too-large index on an empty snapshot and an index
naming an unfilled slot both return `none`. -/
theorem claim_C9_witness :
    InputArguments.player ⟨[]⟩ 0 = none ∧
    InputArguments.player ⟨[none, some ⟨InputDevice.Keyboard ⟨[]⟩⟩]⟩ 0 = none :=
  ⟨claim_C9.2.2.1 ⟨[]⟩ 0 (by decide),
   claim_C9.2.2.2 ⟨[none, some ⟨InputDevice.Keyboard ⟨[]⟩⟩]⟩ 0 (by decide)⟩

/-- Each typed accessor answers exactly for its own variant. -/
theorem accessors_variant (pa : PlayerInputArguments) :
    (pa.nes.isSome ↔ variantOf pa.input = InputDeviceType.Nes) ∧
    (pa.controller.isSome ↔ variantOf pa.input = InputDeviceType.Controller) ∧
    (pa.keyboard.isSome ↔ variantOf pa.input = InputDeviceType.Keyboard) := by
  rcases pa with ⟨input⟩
  cases input <;>
    simp [PlayerInputArguments.nes, PlayerInputArguments.controller,
      PlayerInputArguments.keyboard, variantOf]

/-- Every candidate a split pass fills was produced by a conversion to the
requested type of its slot, hence has that variant. -/
theorem splitLoop_fst_variant (into : List InputDeviceType) :
    ∀ (rem : List InputDevice) (i : Nat) (d : InputDevice),
      ((splitLoop rem into).1)[i]? = some (some d) →
      ∃ t, into[i]? = some t ∧ variantOf d = t := by
  induction into with
  | nil => intro rem i d h; exact absurd h (by simp [splitLoop])
  | cons t rest ih =>
    intro rem i d h
    cases i with
    | zero =>
      have hff : (scanAll rem t).found_for = some d := by
        have hcons : ((splitLoop rem (t :: rest)).1)[0]? = some (scanAll rem t).found_for := by
          rw [show (splitLoop rem (t :: rest)).1 = (scanAll rem t).found_for ::
            (splitLoop (match (scanAll rem t).found_index with
              | some index => rem.eraseIdx index
              | none => rem) rest).1 from rfl, List.getElem?_cons_zero]
        rw [hcons] at h
        exact Option.some.inj h
      have hinv := scanAll_inv rem t
      rcases hst : scanAll rem t with ⟨fi, fa, ff⟩
      rw [hst] at hinv hff
      refine ⟨t, List.getElem?_cons_zero, ?_⟩
      match fi, fa, ff, hinv, hff with
      | none, none, some d0, hinv, hff => exact False.elim hinv
      | none, some a0, none, hinv, hff => exact False.elim hinv
      | none, some a0, some d0, hinv, hff => exact False.elim hinv
      | some i0, none, none, hinv, hff => exact False.elim hinv
      | some i0, none, some d0, hinv, hff => exact False.elim hinv
      | some i0, some a0, none, hinv, hff => exact False.elim hinv
      | none, none, none, hinv, hff => exact Option.noConfusion hff
      | some i0, some a0, some d0, hinv, hff =>
        simp only [ScanInv] at hinv
        obtain ⟨dd, _, _, hdc, _⟩ := hinv
        obtain rfl := Option.some.inj hff
        exact variantOf_convert hdc
    | succ n =>
      have hcons : ((splitLoop rem (t :: rest)).1)[n + 1]? =
          ((splitLoop (match (scanAll rem t).found_index with
            | some index => rem.eraseIdx index
            | none => rem) rest).1)[n]? := by
        rw [show (splitLoop rem (t :: rest)).1 = (scanAll rem t).found_for ::
          (splitLoop (match (scanAll rem t).found_index with
            | some index => rem.eraseIdx index
            | none => rem) rest).1 from rfl, List.getElem?_cons_succ]
      rw [hcons] at h
      obtain ⟨t', ht', hv⟩ := ih _ n d h
      exact ⟨t', by rw [List.getElem?_cons_succ]; exact ht', hv⟩


/-- The absorption step traces every filled slot back to a filled slot of the
same variant (combination keeps the left operand's variant). -/
theorem absorb_getElem_some (r : List (Option PlayerInputArguments)) :
    ∀ (nd : List (Option InputDevice)) (i : Nat) (pa' : PlayerInputArguments),
      (absorb r nd)[i]? = some (some pa') →
      ∃ pa, r[i]? = some (some pa) ∧ variantOf pa'.input = variantOf pa.input := by
  induction r with
  | nil => intro nd i pa' h; exact absurd h (by simp [absorb])
  | cons rp rest ih =>
    intro nd i pa' h
    cases nd with
    | nil =>
      cases i with
      | zero =>
        simp only [absorb, List.getElem?_cons_zero] at h
        exact ⟨pa', by rw [List.getElem?_cons_zero, Option.some.inj h], rfl⟩
      | succ n =>
        simp only [absorb, List.getElem?_cons_succ] at h
        obtain ⟨pa, hpa, hv⟩ := ih [] n pa' h
        exact ⟨pa, by rw [List.getElem?_cons_succ]; exact hpa, hv⟩
    | cons nd0 ndr =>
      cases i with
      | zero =>
        simp only [absorb, List.getElem?_cons_zero] at h
        cases rp with
        | none => cases nd0 <;> simp at h
        | some player =>
          cases nd0 with
          | none =>
            have hh : player = pa' := by simpa using h
            exact ⟨player, List.getElem?_cons_zero, by rw [← hh]⟩
          | some device =>
            have hh : (⟨player.input.combine device⟩ : PlayerInputArguments) = pa' := by
              simpa using h
            refine ⟨player, List.getElem?_cons_zero, ?_⟩
            rw [← hh]
            exact variantOf_combine _ _
      | succ n =>
        simp only [absorb, List.getElem?_cons_succ] at h
        obtain ⟨pa, hpa, hv⟩ := ih ndr n pa' h
        exact ⟨pa, by rw [List.getElem?_cons_succ]; exact hpa, hv⟩

/-- The whole absorption loop traces every filled slot back to a first-pass
slot of the same variant. -/
theorem giaLoopAux_getElem_some (devices : List InputDeviceType)
    (result : List (Option PlayerInputArguments)) (remaining : List InputDevice) :
    ∀ (i : Nat) (pa' : PlayerInputArguments),
      ((giaLoopAux devices result remaining).1)[i]? = some (some pa') →
      ∃ pa, result[i]? = some (some pa) ∧ variantOf pa'.input = variantOf pa.input := by
  induction result, remaining using giaLoopAux.induct devices with
  | case1 result remaining h =>
    intro i pa' hg
    rw [giaLoopAux_stop h] at hg
    exact ⟨pa', hg, rfl⟩
  | case2 result remaining h ih =>
    intro i pa' hg
    rw [giaLoopAux_step h] at hg
    obtain ⟨pa1, hpa1, hv1⟩ := ih i pa' hg
    obtain ⟨pa, hpa, hv⟩ := absorb_getElem_some result _ i pa1 hpa1
    exact ⟨pa, hpa, hv1.trans hv⟩

/-- Claim C10: whenever `get_input_arguments` fills slot `i`, the device held
there has exactly the variant the players list requests for slot `i`, so the
matching typed accessor answers `some` and the other two answer `none`. -/
theorem claim_C10 (c : InputCollection) (info : Info) (i : Nat)
    (pa : PlayerInputArguments)
    (h : ((c.get_input_arguments info).players)[i]? = some (some pa)) :
    ∃ t, (info.players.map fun player => player.input)[i]? = some t ∧
      variantOf pa.input = t ∧
      (pa.nes.isSome ↔ t = InputDeviceType.Nes) ∧
      (pa.controller.isSome ↔ t = InputDeviceType.Controller) ∧
      (pa.keyboard.isSome ↔ t = InputDeviceType.Keyboard) := by
  simp only [InputCollection.get_input_arguments] at h
  obtain ⟨pa1, hpa1, hv1⟩ := giaLoopAux_getElem_some _ _ _ i pa h
  rw [List.getElem?_map] at hpa1
  cases hd : ((c.split (info.players.map fun player => player.input)).1)[i]? with
  | none => rw [hd] at hpa1; exact absurd hpa1 (by simp)
  | some v =>
    rw [hd] at hpa1
    cases v with
    | none => exact absurd hpa1 (by simp)
    | some d0 =>
      have hpa1e : pa1 = ⟨d0⟩ := by
        have hthis := hpa1
        simp only [Option.map_some', Option.some.injEq] at hthis
        exact hthis.symm
      obtain ⟨t, ht, hvar⟩ := splitLoop_fst_variant _ c.inputs i d0 hd
      have hvt : variantOf pa.input = t := by
        rw [hv1, hpa1e]
        exact hvar
      have hacc := accessors_variant pa
      refine ⟨t, ht, hvt, ?_, ?_, ?_⟩
      · rw [← hvt]; exact hacc.1
      · rw [← hvt]; exact hacc.2.1
      · rw [← hvt]; exact hacc.2.2

/-- Witness for claim C10: a pool holding one NES pad assigned to a one-player
Nes request; the filled slot has the Nes variant. -/
theorem claim_C10_witness :
    ∃ t,
      (([⟨InputDeviceType.Nes⟩] : List Player).map fun player => player.input)[0]? = some t ∧
      variantOf (InputDevice.Nes ⟨true, false, false, false, false, false, false, false⟩) = t ∧
      ((PlayerInputArguments.mk
          (InputDevice.Nes ⟨true, false, false, false, false, false, false, false⟩)).nes.isSome ↔
        t = InputDeviceType.Nes) ∧
      ((PlayerInputArguments.mk
          (InputDevice.Nes ⟨true, false, false, false, false, false, false, false⟩)).controller.isSome ↔
        t = InputDeviceType.Controller) ∧
      ((PlayerInputArguments.mk
          (InputDevice.Nes ⟨true, false, false, false, false, false, false, false⟩)).keyboard.isSome ↔
        t = InputDeviceType.Keyboard) :=
  claim_C10 ⟨[InputDevice.Nes ⟨true, false, false, false, false, false, false, false⟩]⟩
    ⟨"", 0, [⟨InputDeviceType.Nes⟩]⟩ 0
    ⟨InputDevice.Nes ⟨true, false, false, false, false, false, false, false⟩⟩
    (by simp [InputCollection.get_input_arguments, InputCollection.split, splitLoop,
      giaLoopAux, scanAll, scanLoop, scanStep, InputDevice.affinity, InputDevice.convert,
      Nes.affinity, Nes.convert, absorb])
